import Mathlib

/-!
# Message tracker (`network/tracker.go`)

A shallow embedding of the bounded FIFO message tracker and the properties of
its operations `Add`, `Delete`, `Message` and `Messages`.

Modelling conventions.

* A `*Message` is an address (`Nat`) into a heap `Heap = Nat → Message`; a nil
  pointer is `none : Option Nat`. The tracker stores the pointers it is given,
  and reads `message.ID` through the heap, as the Go code does.
* A `*list.Element` of `container/list` is a record of its own address and the
  `Value` it carries; `GoList` is the sequence of elements front to back plus
  the next unused element address.
* The Go `map[string]*list.Element` is an association list with `get`, `set`
  and `delete`.
* Each method body runs under the tracker's lock, so a method is one atomic
  state transformer; the lock itself is not modelled.
* A Go run-time panic (nil dereference) is the result `none`.
* The heap is a parameter that stays the same over a sequence of calls: between
  two calls the caller does not write to a message it has handed to the tracker.
-/

namespace network

/-- Modelled from the spec: the `Message` struct, declared in a file that is not
among the sources; its three fields are `id`, `peerID` and the opaque `data`
bytes. -/
structure Message where
  ID : String
  PeerID : String
  Data : List Nat
deriving DecidableEq

/-- Modelled from the spec: the two error values of the package,
`ErrInvalidMessage` and `ErrMessageNotFound`, declared in a file that is not
among the sources. A nil `error` is `none : Option Error`. -/
inductive Error where
  | ErrInvalidMessage
  | ErrMessageNotFound
deriving DecidableEq

/-- The memory holding the caller's messages: the `Message` found at each
non-nil `*Message` address. -/
abbrev Heap := Nat → Message

/-- A `list.Element`: the node's own address and the `Value` stored in it, which
in this program is always the non-nil `*Message` handed to `PushBack`. -/
structure Element where
  addr : Nat
  Value : Nat
deriving DecidableEq

/-- A `container/list.List`: its elements from front to back, and the address
the next allocated element gets. -/
structure GoList where
  elems : List Element
  fresh : Nat
deriving DecidableEq

namespace GoList

/-- The value of `list.New()`. -/
def New : GoList := ⟨[], 0⟩

/-- The value of `l.Len()`. -/
def Len (l : GoList) : Nat := l.elems.length

/-- The value of `l.Front()`: the first element, or nil (`none`) when the list is empty. -/
def Front (l : GoList) : Option Element := l.elems.head?

/-- The effect of `l.Remove(e)` for a non-nil `e`: the node with the address of
`e` is unlinked; a node that is not in the list leaves the list as it is. -/
def Remove (l : GoList) (e : Element) : GoList :=
  { l with elems := l.elems.filter (fun x => decide (x.addr ≠ e.addr)) }

/-- The effect of `l.PushBack(v)`: a newly allocated element carrying `v` is
linked at the back and returned. -/
def PushBack (l : GoList) (v : Nat) : Element × GoList :=
  (⟨l.fresh, v⟩, ⟨l.elems ++ [⟨l.fresh, v⟩], l.fresh + 1⟩)

end GoList

/-- A Go `map[string]*list.Element`. -/
abbrev GoMap := List (String × Element)

namespace GoMap

/-- The lookup `e, ok := m[k]`: `some e` when `ok`, `none` otherwise. -/
def get : GoMap → String → Option Element
  | [], _ => none
  | (k1, e) :: rest, k => if k1 = k then some e else get rest k

/-- The effect of `delete(m, k)`. -/
def delete (m : GoMap) (k : String) : GoMap :=
  m.filter (fun kv => decide (kv.1 ≠ k))

/-- The effect of `m[k] = e`. -/
def set (m : GoMap) (k : String) (e : Element) : GoMap :=
  (k, e) :: delete m k

end GoMap

/-- The struct `tracker` (without its mutex). -/
structure tracker where
  maxLength : Int
  linkedList : GoList
  idToElementMap : GoMap
deriving DecidableEq

/-- The function `newTracker(maxLength)`. -/
def newTracker (maxLength : Int) : tracker :=
  { maxLength := maxLength, linkedList := GoList.New, idToElementMap := [] }

/-- The eviction step of `Add` (the `if t.linkedList.Len() >= t.maxLength` block):
`none` when `Front()` is nil, where `Remove` dereferences a nil element. -/
def tracker.evict (t : tracker) (h : Heap) : Option tracker :=
  if (t.linkedList.Len : Int) ≥ t.maxLength then
    match t.linkedList.Front with
    | none => none
    | some firstElement =>
      some { t with
        linkedList := t.linkedList.Remove firstElement
        idToElementMap := t.idToElementMap.delete (h firstElement.Value).ID }
  else some t

/-- The method `tracker.Add`: the tracker afterwards and the returned error, or
`none` when the call panics. -/
def tracker.Add (t : tracker) (h : Heap) (message : Option Nat) : Option (tracker × Option Error) :=
  match message with
  | none => some (t, some Error.ErrInvalidMessage)
  | some p =>
    if (h p).ID = "" then some (t, some Error.ErrInvalidMessage)
    else
      match t.idToElementMap.get (h p).ID with
      | some _ => some (t, none)
      | none =>
        match t.evict h with
        | none => none
        | some t1 =>
          let pushed := t1.linkedList.PushBack p
          some ({ t1 with
            linkedList := pushed.2
            idToElementMap := t1.idToElementMap.set (h p).ID pushed.1 }, none)

/-- The method `tracker.Delete`: the tracker afterwards and the returned error. -/
def tracker.Delete (t : tracker) (id : String) : tracker × Option Error :=
  match t.idToElementMap.get id with
  | none => (t, some Error.ErrMessageNotFound)
  | some element =>
    ({ t with
      linkedList := t.linkedList.Remove element
      idToElementMap := t.idToElementMap.delete id }, none)

/-- The method `tracker.Message`: the returned pointer (`none` is nil) and error. -/
def tracker.Message (t : tracker) (id : String) : Option Nat × Option Error :=
  match t.idToElementMap.get id with
  | none => (none, some Error.ErrMessageNotFound)
  | some element => (some element.Value, none)

/-- The method `tracker.Messages`: the `Value` of every element, front to back. -/
def tracker.Messages (t : tracker) : List Nat :=
  t.linkedList.elems.map (fun e => e.Value)

/-- One call on the tracker's public surface. -/
inductive Op where
  | Add (message : Option Nat)
  | Delete (id : String)
  | Message (id : String)
  | Messages
deriving DecidableEq

/-- The tracker after one call, `none` when the call panics. -/
def step (h : Heap) (t : tracker) : Op → Option tracker
  | Op.Add message => (t.Add h message).map (fun r => r.1)
  | Op.Delete id => some (t.Delete id).1
  | Op.Message _ => some t
  | Op.Messages => some t

/-- The tracker after a sequence of calls, `none` when one of them panics. -/
def run (h : Heap) (t : tracker) : List Op → Option tracker
  | [] => some t
  | op :: ops => (step h t op).bind (fun t1 => run h t1 ops)

/-- A tracker state that some sequence of calls produces from `newTracker maxLength`. -/
def Reachable (h : Heap) (maxLength : Int) (t : tracker) : Prop :=
  ∃ ops : List Op, run h (newTracker maxLength) ops = some t

/-- The decimal digits of `n`, most significant first, with `fuel` bounding the
number of digits. -/
def digits : Nat → Nat → List Char
  | 0, _ => []
  | fuel + 1, n =>
    if n < 10 then [Char.ofNat (48 + n)]
    else digits fuel (n / 10) ++ [Char.ofNat (48 + n % 10)]

/-- The test helper `generateMessage(n)` for `n ≥ 0`. -/
def generateMessage (n : Nat) : Message :=
  { ID := "someID" ++ String.mk (digits (n + 1) n)
    PeerID := "somePeerID" ++ String.mk (digits (n + 1) n)
    Data := [0, 1, 1] }

/-- The heap of the tests: the message at address `n` is `generateMessage(n)`. -/
def testHeap : Heap := fun n => generateMessage n

/-- The heap of the test "not full, with duplicates from other peers": address
`100 + n` holds a second message with the ID of `generateMessage(n)` whose
`PeerID` was overwritten with `"somePeerID0"`. -/
def peerHeap : Heap := fun n =>
  if n < 100 then generateMessage n
  else { generateMessage (n - 100) with PeerID := "somePeerID0" }

/-- The heap of the test "add message with empty ID string": every message is a
`generateMessage(n)` whose `ID` was overwritten with `""`. -/
def blankHeap : Heap := fun n => { generateMessage n with ID := "" }

/-- The tracker of capacity 2 after `Add` of the messages 0, 1 and 2: it is full
and message 0 has been evicted. -/
def fullTracker : tracker :=
  { maxLength := 2
    linkedList := { elems := [⟨1, 1⟩, ⟨2, 2⟩], fresh := 3 }
    idToElementMap := [("someID2", ⟨2, 2⟩), ("someID1", ⟨1, 1⟩)] }

/-- The tracker of capacity 3 after `Add` of the messages 0 and 1. -/
def roomyTracker : tracker :=
  { maxLength := 3
    linkedList := { elems := [⟨0, 0⟩, ⟨1, 1⟩], fresh := 2 }
    idToElementMap := [("someID1", ⟨1, 1⟩), ("someID0", ⟨0, 0⟩)] }

/-- The keys of a Go map. -/
def GoMap.keys (m : GoMap) : List String := m.map Prod.fst

/-- The representation invariant tying the linked list to the index: element
addresses are below the allocation counter and pairwise distinct, the tracked
messages have pairwise distinct IDs, and the map holds exactly the pairs of an
ID and the list element whose message has that ID. -/
structure Inv (h : Heap) (t : tracker) : Prop where
  addr_lt : ∀ e ∈ t.linkedList.elems, e.addr < t.linkedList.fresh
  addr_nodup : (t.linkedList.elems.map (fun e => e.addr)).Nodup
  id_nodup : (t.linkedList.elems.map (fun e => (h e.Value).ID)).Nodup
  index : ∀ k e, t.idToElementMap.get k = some e ↔
    (e ∈ t.linkedList.elems ∧ (h e.Value).ID = k)

/-- The errors returned by adding the messages `ps` one after the other, and the
tracker at the end; `none` when one of the calls panics. -/
def addAll (h : Heap) (t : tracker) : List (Option Nat) → Option (tracker × List (Option Error))
  | [] => some (t, [])
  | m :: ms =>
    match t.Add h m with
    | none => none
    | some (t1, err) =>
      match addAll h t1 ms with
      | none => none
      | some (t2, errs) => some (t2, err :: errs)

/-- The tracker without the entry whose message has ID `k`: the state that an
eviction of that entry, or `Delete(k)`, leaves behind. -/
def tracker.dropId (t : tracker) (h : Heap) (k : String) : tracker :=
  { t with
    linkedList :=
      { t.linkedList with
        elems := t.linkedList.elems.filter (fun x => decide ((h x.Value).ID ≠ k)) }
    idToElementMap := t.idToElementMap.delete k }

/-- The tracker with a new element carrying `p` linked at the back and entered
in the index: the last two statements of `Add`. -/
def tracker.push (t : tracker) (h : Heap) (p : Nat) : tracker :=
  { t with
    linkedList := (t.linkedList.PushBack p).2
    idToElementMap := t.idToElementMap.set (h p).ID (t.linkedList.PushBack p).1 }


/-- The errors returned by `Delete` of the ids `ids` one after the other, and
the tracker at the end. -/
def deleteAll (t : tracker) : List String → tracker × List (Option Error)
  | [] => (t, [])
  | id :: ids => ((deleteAll (t.Delete id).1 ids).1, (t.Delete id).2 :: (deleteAll (t.Delete id).1 ids).2)

/-- Index/order consistency of a tracker whose messages are read in the heap
`h`: the keys of `idToElementMap` are the IDs of the messages in `linkedList`,
every key maps to a list element whose message has that ID, and `Message(id)`
succeeds exactly for the IDs of the entries of `Messages()`. -/
def IndexOrderConsistent (h : Heap) (t : tracker) : Prop :=
  (∀ k, k ∈ GoMap.keys t.idToElementMap ↔ ∃ e ∈ t.linkedList.elems, (h e.Value).ID = k) ∧
  (∀ k e, t.idToElementMap.get k = some e → e ∈ t.linkedList.elems ∧ (h e.Value).ID = k) ∧
  (∀ id, (t.Message id).2 = none ↔ ∃ q ∈ t.Messages, (h q).ID = id)

/-- The tracker of capacity 2 after `Add` of message 0. -/
def singleTracker : tracker :=
  { maxLength := 2
    linkedList := { elems := [⟨0, 0⟩], fresh := 1 }
    idToElementMap := [("someID0", ⟨0, 0⟩)] }

/-- The heap of the tests after a caller wrote `"changed"` to the `ID` of the
message at address 0, through the pointer that `Messages()` returned. -/
def renamedHeap : Heap := fun n =>
  if n = 0 then { generateMessage 0 with ID := "changed" } else generateMessage n

/-- The heap of the tests after a caller wrote to the `PeerID` and the `Data` of
the message at address 0, through the pointer that `Messages()` returned. -/
def rewrittenHeap : Heap := fun n =>
  if n = 0 then { generateMessage 0 with PeerID := "other", Data := [7] } else generateMessage n

section MapLemmas

theorem GoMap.get_delete_self (m : GoMap) (k : String) : (GoMap.delete m k).get k = none := by
  induction m with
  | nil => rfl
  | cons kv rest ih =>
    obtain ⟨k1, e⟩ := kv
    by_cases hk : k1 = k
    · simpa [GoMap.delete, List.filter_cons, hk] using ih
    · simpa [GoMap.delete, List.filter_cons, hk, GoMap.get] using ih

theorem GoMap.get_delete_ne (m : GoMap) {k k2 : String} (hne : k2 ≠ k) :
    (GoMap.delete m k).get k2 = m.get k2 := by
  induction m with
  | nil => rfl
  | cons kv rest ih =>
    obtain ⟨k1, e⟩ := kv
    unfold GoMap.delete at ih ⊢
    rw [List.filter_cons]
    by_cases hk : k1 = k
    · subst hk
      have h2 : ¬ k1 = k2 := fun h => hne h.symm
      simpa [GoMap.get, h2] using ih
    · by_cases h2 : k1 = k2
      · subst h2
        simp [GoMap.get, hk]
      · simpa [GoMap.get, hk, h2] using ih

theorem GoMap.mem_keys_iff (m : GoMap) (k : String) :
    k ∈ GoMap.keys m ↔ ∃ e, m.get k = some e := by
  induction m with
  | nil => simp [GoMap.keys, GoMap.get]
  | cons kv rest ih =>
    obtain ⟨k1, e1⟩ := kv
    by_cases hk : k1 = k
    · subst hk
      simp [GoMap.keys, GoMap.get]
    · have hk2 : ¬ k = k1 := fun heq => hk heq.symm
      simp only [GoMap.keys, List.map_cons, List.mem_cons, hk2, false_or, GoMap.get, hk,
        if_false]
      exact ih

theorem GoMap.get_set_self (m : GoMap) (k : String) (e : Element) :
    (GoMap.set m k e).get k = some e := by
  simp [GoMap.set, GoMap.get]

theorem GoMap.get_set_ne (m : GoMap) {k k2 : String} (e : Element) (hne : k2 ≠ k) :
    (GoMap.set m k e).get k2 = m.get k2 := by
  have h2 : k ≠ k2 := fun h => hne h.symm
  simp [GoMap.set, GoMap.get, h2, GoMap.get_delete_ne m hne]

end MapLemmas

section InvLemmas

variable {h : Heap} {t : tracker}

theorem filter_ne_head {α β : Type} [DecidableEq β] (f : α → β) (a : α) (rest : List α)
    (hnd : ((a :: rest).map f).Nodup) :
    (a :: rest).filter (fun x => decide (f x ≠ f a)) = rest := by
  rw [List.map_cons, List.nodup_cons] at hnd
  rw [List.filter_cons]
  simp only [ne_eq, not_true_eq_false, decide_False, Bool.false_eq_true, if_false]
  apply List.filter_eq_self.mpr
  intro x hx
  have : f x ≠ f a := fun heq => hnd.1 (heq ▸ List.mem_map_of_mem f hx)
  simpa using this

theorem Inv.init (h : Heap) (n : Int) : Inv h (newTracker n) where
  addr_lt := by simp [newTracker, GoList.New]
  addr_nodup := by simp [newTracker, GoList.New]
  id_nodup := by simp [newTracker, GoList.New]
  index := by simp [newTracker, GoList.New, GoMap.get]

theorem Inv.addr_iff_id (hI : Inv h t) {e x : Element} (he : e ∈ t.linkedList.elems)
    (hx : x ∈ t.linkedList.elems) : x.addr = e.addr ↔ (h x.Value).ID = (h e.Value).ID := by
  constructor
  · intro heq
    have := List.inj_on_of_nodup_map hI.addr_nodup hx he heq
    rw [this]
  · intro heq
    have := List.inj_on_of_nodup_map hI.id_nodup hx he heq
    rw [this]

theorem Inv.remove_eq (hI : Inv h t) {e : Element} (he : e ∈ t.linkedList.elems) :
    t.linkedList.Remove e =
      { t.linkedList with
        elems := t.linkedList.elems.filter (fun x => decide ((h x.Value).ID ≠ (h e.Value).ID)) } := by
  unfold GoList.Remove
  congr 1
  apply List.filter_congr
  intro x hx
  have := hI.addr_iff_id he hx
  simp [this]

theorem Inv.of_dropId (hI : Inv h t) (k : String) : Inv h (t.dropId h k) where
  addr_lt := by
    intro e he
    simp only [tracker.dropId, List.mem_filter] at he
    exact hI.addr_lt e he.1
  addr_nodup := by
    simp only [tracker.dropId]
    exact hI.addr_nodup.sublist (List.filter_sublist _ |>.map _)
  id_nodup := by
    simp only [tracker.dropId]
    exact hI.id_nodup.sublist (List.filter_sublist _ |>.map _)
  index := by
    intro k2 e
    simp only [tracker.dropId, List.mem_filter]
    by_cases hk : k2 = k
    · subst hk
      rw [GoMap.get_delete_self]
      constructor
      · intro hc; cases hc
      · rintro ⟨⟨_, hne⟩, heq⟩
        simp [heq] at hne
    · rw [GoMap.get_delete_ne _ hk, hI.index]
      constructor
      · rintro ⟨he, heq⟩
        refine ⟨⟨he, ?_⟩, heq⟩
        simpa [heq] using hk
      · rintro ⟨⟨he, _⟩, heq⟩
        exact ⟨he, heq⟩

theorem Inv.of_push (hI : Inv h t) (p : Nat) (hnone : t.idToElementMap.get (h p).ID = none) :
    Inv h (t.push h p) where
  addr_lt := by
    intro e he
    simp only [tracker.push, GoList.PushBack, List.mem_append, List.mem_singleton] at he ⊢
    rcases he with he | rfl
    · exact Nat.lt_succ_of_lt (hI.addr_lt e he)
    · exact Nat.lt_succ_self _
  addr_nodup := by
    simp only [tracker.push, GoList.PushBack, List.map_append, List.map_cons, List.map_nil]
    apply List.Nodup.append hI.addr_nodup (List.nodup_singleton _)
    intro a ha hb
    simp only [List.mem_map] at ha
    obtain ⟨e, he, rfl⟩ := ha
    simp only [List.mem_singleton] at hb
    exact absurd hb (Nat.ne_of_lt (hI.addr_lt e he))
  id_nodup := by
    simp only [tracker.push, GoList.PushBack, List.map_append, List.map_cons, List.map_nil]
    apply List.Nodup.append hI.id_nodup (List.nodup_singleton _)
    intro a ha hb
    simp only [List.mem_map] at ha
    obtain ⟨e, he, rfl⟩ := ha
    simp only [List.mem_singleton] at hb
    have := (hI.index (h p).ID e).mpr ⟨he, hb⟩
    rw [hnone] at this
    cases this
  index := by
    intro k2 e
    simp only [tracker.push, GoList.PushBack, List.mem_append, List.mem_singleton]
    by_cases hk : k2 = (h p).ID
    · subst hk
      rw [GoMap.get_set_self]
      constructor
      · intro heq
        cases heq
        exact ⟨Or.inr rfl, rfl⟩
      · rintro ⟨he | he, heq⟩
        · have := (hI.index (h p).ID e).mpr ⟨he, heq⟩
          rw [hnone] at this
          cases this
        · rw [he]
    · rw [GoMap.get_set_ne _ _ hk, hI.index]
      constructor
      · rintro ⟨he, heq⟩
        exact ⟨Or.inl he, heq⟩
      · rintro ⟨he | he, heq⟩
        · exact ⟨he, heq⟩
        · subst he
          exact absurd heq.symm hk

end InvLemmas

section OperationLemmas

variable {h : Heap} {t : tracker}

theorem Messages_dropId (t : tracker) (h : Heap) (k : String) :
    (t.dropId h k).Messages = t.Messages.filter (fun q => decide ((h q).ID ≠ k)) := by
  simp only [tracker.dropId, tracker.Messages, List.filter_map]
  rfl

theorem Messages_push (t : tracker) (h : Heap) (p : Nat) :
    (t.push h p).Messages = t.Messages ++ [p] := by
  simp [tracker.push, tracker.Messages, GoList.PushBack]

theorem Inv.ids_nodup (hI : Inv h t) : (t.Messages.map (fun q => (h q).ID)).Nodup := by
  have := hI.id_nodup
  simpa [tracker.Messages, List.map_map, Function.comp_def] using this

theorem Inv.get_none_iff (hI : Inv h t) (k : String) :
    t.idToElementMap.get k = none ↔ ∀ q ∈ t.Messages, (h q).ID ≠ k := by
  constructor
  · intro hnone q hq heq
    simp only [tracker.Messages, List.mem_map] at hq
    obtain ⟨e, he, rfl⟩ := hq
    have := (hI.index k e).mpr ⟨he, heq⟩
    rw [hnone] at this
    cases this
  · intro hall
    cases hg : t.idToElementMap.get k with
    | none => rfl
    | some e =>
      have := (hI.index k e).mp hg
      exact absurd this.2 (hall e.Value (List.mem_map_of_mem _ this.1))

theorem Inv.Message_of_mem (hI : Inv h t) {q : Nat} (hq : q ∈ t.Messages) :
    t.Message (h q).ID = (some q, none) := by
  simp only [tracker.Messages, List.mem_map] at hq
  obtain ⟨e, he, rfl⟩ := hq
  have := (hI.index (h e.Value).ID e).mpr ⟨he, rfl⟩
  simp [tracker.Message, this]

theorem Inv.Message_of_not_mem (hI : Inv h t) {id : String}
    (hall : ∀ q ∈ t.Messages, (h q).ID ≠ id) :
    t.Message id = (none, some Error.ErrMessageNotFound) := by
  have := (hI.get_none_iff id).mpr hall
  simp [tracker.Message, this]

theorem Delete_missing {id : String} (hg : t.idToElementMap.get id = none) :
    t.Delete id = (t, some Error.ErrMessageNotFound) := by
  simp [tracker.Delete, hg]

theorem Inv.Delete_found (hI : Inv h t) {id : String} {e : Element}
    (hg : t.idToElementMap.get id = some e) : t.Delete id = (t.dropId h id, none) := by
  have hmem := (hI.index id e).mp hg
  simp only [tracker.Delete, hg, tracker.dropId, hI.remove_eq hmem.1, hmem.2]

theorem evict_below (h : Heap) (hlt : (t.linkedList.Len : Int) < t.maxLength) :
    t.evict h = some t := by
  simp [tracker.evict, not_le.mpr hlt]

theorem evict_empty (h : Heap) (hge : t.maxLength ≤ (t.linkedList.Len : Int))
    (hnil : t.linkedList.elems = []) : t.evict h = none := by
  simp [tracker.evict, hge, GoList.Front, hnil]

theorem Inv.evict_full (hI : Inv h t) (hge : t.maxLength ≤ (t.linkedList.Len : Int))
    {first : Element} {rest : List Element} (hcons : t.linkedList.elems = first :: rest) :
    t.evict h = some (t.dropId h (h first.Value).ID) := by
  have hmem : first ∈ t.linkedList.elems := by simp [hcons]
  simp [tracker.evict, hge, GoList.Front, hcons, tracker.dropId, hI.remove_eq hmem]

theorem Inv.dropId_head (hI : Inv h t) {first : Element} {rest : List Element}
    (hcons : t.linkedList.elems = first :: rest) :
    (t.dropId h (h first.Value).ID).linkedList.elems = rest := by
  have hnd := hI.id_nodup
  rw [hcons] at hnd
  simp only [tracker.dropId, hcons]
  exact filter_ne_head (fun e : Element => (h e.Value).ID) first rest hnd

theorem get_dropId_none (h : Heap) {k : String} (k2 : String)
    (hnone : t.idToElementMap.get k = none) : (t.dropId h k2).idToElementMap.get k = none := by
  by_cases hk : k = k2
  · subst hk
    exact GoMap.get_delete_self _ _
  · simp only [tracker.dropId]
    rw [GoMap.get_delete_ne _ hk, hnone]

theorem Add_nil (h : Heap) (t : tracker) :
    t.Add h none = some (t, some Error.ErrInvalidMessage) := rfl

theorem Add_empty_id (t : tracker) {p : Nat} (hid : (h p).ID = "") :
    t.Add h (some p) = some (t, some Error.ErrInvalidMessage) := by
  simp [tracker.Add, hid]

theorem Add_tracked {p : Nat} {e : Element} (hid : (h p).ID ≠ "")
    (hg : t.idToElementMap.get (h p).ID = some e) : t.Add h (some p) = some (t, none) := by
  simp [tracker.Add, hid, hg]

theorem Add_untracked {p : Nat} (hid : (h p).ID ≠ "")
    (hg : t.idToElementMap.get (h p).ID = none) :
    t.Add h (some p) = (t.evict h).map (fun t1 => (t1.push h p, none)) := by
  simp only [tracker.Add, hid, hg, if_false]
  cases t.evict h <;> rfl

end OperationLemmas

section StepLemmas

variable {h : Heap} {t : tracker}

theorem Messages_length (t : tracker) : t.Messages.length = t.linkedList.Len := by
  simp [tracker.Messages, GoList.Len]

theorem Messages_tail (t : tracker) {first : Element} {rest : List Element}
    (hcons : t.linkedList.elems = first :: rest) :
    t.Messages.tail = rest.map (fun e => e.Value) := by
  simp [tracker.Messages, hcons]

/-- What `Add` does with a valid message whose ID is not in the index, when the
capacity is positive: it succeeds, evicting the front entry exactly when the
list has reached the capacity, and appends the message at the back. -/
theorem Inv.Add_fresh (hI : Inv h t) (hpos : 1 ≤ t.maxLength) {p : Nat} (hid : (h p).ID ≠ "")
    (hg : t.idToElementMap.get (h p).ID = none) :
    ∃ t1, t.Add h (some p) = some (t1, none) ∧ Inv h t1 ∧ t1.maxLength = t.maxLength ∧
      t1.Messages =
        (if t.maxLength ≤ (t.Messages.length : Int) then t.Messages.tail else t.Messages) ++ [p] := by
  rw [Add_untracked hid hg, Messages_length]
  by_cases hge : t.maxLength ≤ (t.linkedList.Len : Int)
  · cases hcons : t.linkedList.elems with
    | nil =>
      simp only [GoList.Len, hcons, List.length_nil] at hge
      omega
    | cons first rest =>
      refine ⟨(t.dropId h (h first.Value).ID).push h p, ?_, ?_, rfl, ?_⟩
      · rw [hI.evict_full hge hcons]
        rfl
      · exact (hI.of_dropId _).of_push p (get_dropId_none h _ hg)
      · rw [if_pos hge, Messages_push, Messages_tail t hcons]
        simp only [tracker.Messages, hI.dropId_head hcons]
  · refine ⟨t.push h p, ?_, hI.of_push p hg, rfl, ?_⟩
    · rw [evict_below h (not_le.mp hge)]
      rfl
    · rw [if_neg hge, Messages_push]

theorem Inv.of_Add (hI : Inv h t) {m : Option Nat} {t1 : tracker} {err : Option Error}
    (hA : t.Add h m = some (t1, err)) : Inv h t1 ∧ t1.maxLength = t.maxLength := by
  cases m with
  | none =>
    rw [Add_nil] at hA
    cases hA
    exact ⟨hI, rfl⟩
  | some p =>
    by_cases hid : (h p).ID = ""
    · rw [Add_empty_id t hid] at hA
      cases hA
      exact ⟨hI, rfl⟩
    · cases hg : t.idToElementMap.get (h p).ID with
      | some e =>
        rw [Add_tracked hid hg] at hA
        cases hA
        exact ⟨hI, rfl⟩
      | none =>
        rw [Add_untracked hid hg] at hA
        by_cases hge : t.maxLength ≤ (t.linkedList.Len : Int)
        · cases hcons : t.linkedList.elems with
          | nil =>
            rw [evict_empty h hge hcons] at hA
            cases hA
          | cons first rest =>
            rw [hI.evict_full hge hcons] at hA
            cases hA
            exact ⟨(hI.of_dropId _).of_push p (get_dropId_none h _ hg), rfl⟩
        · rw [evict_below h (not_le.mp hge)] at hA
          cases hA
          exact ⟨hI.of_push p hg, rfl⟩

theorem Inv.of_Delete (hI : Inv h t) (id : String) :
    Inv h (t.Delete id).1 ∧ (t.Delete id).1.maxLength = t.maxLength := by
  cases hg : t.idToElementMap.get id with
  | none =>
    rw [Delete_missing hg]
    exact ⟨hI, rfl⟩
  | some e =>
    rw [hI.Delete_found hg]
    exact ⟨hI.of_dropId _, rfl⟩

theorem Inv.of_step (hI : Inv h t) {op : Op} {t1 : tracker} (hs : step h t op = some t1) :
    Inv h t1 ∧ t1.maxLength = t.maxLength := by
  cases op with
  | Add m =>
    cases hA : t.Add h m with
    | none => simp [network.step, hA] at hs
    | some r =>
      obtain ⟨t2, err⟩ := r
      simp only [network.step, hA, Option.map_some', Option.some.injEq] at hs
      subst hs
      exact hI.of_Add hA
  | Delete id =>
    simp only [network.step, Option.some.injEq] at hs
    subst hs
    exact hI.of_Delete id
  | Message id =>
    simp only [network.step, Option.some.injEq] at hs
    subst hs
    exact ⟨hI, rfl⟩
  | Messages =>
    simp only [network.step, Option.some.injEq] at hs
    subst hs
    exact ⟨hI, rfl⟩

theorem Inv.of_run (hI : Inv h t) {ops : List Op} {t1 : tracker} (hr : run h t ops = some t1) :
    Inv h t1 ∧ t1.maxLength = t.maxLength := by
  induction ops generalizing t with
  | nil =>
    simp only [network.run, Option.some.injEq] at hr
    subst hr
    exact ⟨hI, rfl⟩
  | cons op ops ih =>
    simp only [network.run, Option.bind_eq_some] at hr
    obtain ⟨t2, hs, hr2⟩ := hr
    have h2 := hI.of_step hs
    have h3 := ih h2.1 hr2
    exact ⟨h3.1, h3.2.trans h2.2⟩

theorem Reachable.inv {n : Int} (hR : Reachable h n t) : Inv h t ∧ t.maxLength = n := by
  obtain ⟨ops, hr⟩ := hR
  exact (Inv.init h n).of_run hr

theorem Messages_dropId_length_le (t : tracker) (h : Heap) (k : String) :
    (t.dropId h k).Messages.length ≤ t.Messages.length := by
  rw [Messages_dropId]
  exact List.length_filter_le _ _

/-- With a positive capacity no call panics, and a call on a tracker within its
capacity leaves it within its capacity. -/
theorem Inv.step_bounded (hI : Inv h t) (hpos : 1 ≤ t.maxLength)
    (hb : (t.Messages.length : Int) ≤ t.maxLength) (op : Op) :
    ∃ t1, step h t op = some t1 ∧ (t1.Messages.length : Int) ≤ t1.maxLength := by
  cases op with
  | Add m =>
    cases m with
    | none => exact ⟨t, by simp [network.step, Add_nil], hb⟩
    | some p =>
      by_cases hid : (h p).ID = ""
      · exact ⟨t, by simp [network.step, Add_empty_id t hid], hb⟩
      · cases hg : t.idToElementMap.get (h p).ID with
        | some e => exact ⟨t, by simp [network.step, Add_tracked hid hg], hb⟩
        | none =>
          obtain ⟨t1, hA, -, hmax, hM⟩ := hI.Add_fresh hpos hid hg
          refine ⟨t1, by simp [network.step, hA], ?_⟩
          rw [hM, hmax]
          by_cases hge : t.maxLength ≤ (t.Messages.length : Int)
          · rw [if_pos hge]
            simp only [List.length_append, List.length_tail, List.length_singleton]
            omega
          · rw [if_neg hge]
            simp only [List.length_append, List.length_singleton]
            push_cast
            omega
  | Delete id =>
    refine ⟨(t.Delete id).1, rfl, ?_⟩
    cases hg : t.idToElementMap.get id with
    | none =>
      rw [Delete_missing hg]
      exact hb
    | some e =>
      rw [hI.Delete_found hg]
      have := Messages_dropId_length_le t h id
      show ((t.dropId h id).Messages.length : Int) ≤ t.maxLength
      omega
  | Message id => exact ⟨t, rfl, hb⟩
  | Messages => exact ⟨t, rfl, hb⟩

theorem Inv.run_bounded (hI : Inv h t) (hpos : 1 ≤ t.maxLength)
    (hb : (t.Messages.length : Int) ≤ t.maxLength) (ops : List Op) :
    ∃ t1, run h t ops = some t1 ∧ (t1.Messages.length : Int) ≤ t1.maxLength := by
  induction ops generalizing t with
  | nil => exact ⟨t, rfl, hb⟩
  | cons op ops ih =>
    obtain ⟨t1, hs, hb1⟩ := hI.step_bounded hpos hb op
    have h1 := hI.of_step hs
    obtain ⟨t2, hr, hb2⟩ := ih h1.1 (h1.2 ▸ hpos) hb1
    exact ⟨t2, by simp [network.run, hs, hr], hb2⟩

theorem run_newTracker_bounded (h : Heap) {n : Int} (hpos : 1 ≤ n) (ops : List Op) :
    ∃ t1, run h (newTracker n) ops = some t1 ∧ (t1.Messages.length : Int) ≤ n := by
  have hb : (((newTracker n).Messages.length : Nat) : Int) ≤ (newTracker n).maxLength := by
    simp only [newTracker, tracker.Messages, GoList.New, List.map_nil, List.length_nil]
    omega
  obtain ⟨t1, hr, hb1⟩ := (Inv.init h n).run_bounded hpos hb ops
  have hmax : t1.maxLength = n := ((Inv.init h n).of_run hr).2
  rw [hmax] at hb1
  exact ⟨t1, hr, hb1⟩

theorem Reachable.bounded {n : Int} (hpos : 1 ≤ n) (hR : Reachable h n t) :
    (t.Messages.length : Int) ≤ n := by
  obtain ⟨ops, hr⟩ := hR
  obtain ⟨t1, hr1, hb⟩ := run_newTracker_bounded h hpos ops
  rw [hr] at hr1
  cases hr1
  exact hb

end StepLemmas

section Fifo

variable {h : Heap} {t : tracker}

theorem addAll_cons_ok {m : Option Nat} {ms : List (Option Nat)} {t1 t2 : tracker}
    {err : Option Error} {errs : List (Option Error)} (hA : t.Add h m = some (t1, err))
    (hrest : addAll h t1 ms = some (t2, errs)) :
    addAll h t (m :: ms) = some (t2, err :: errs) := by
  simp [addAll, hA, hrest]

theorem drop_tail_append {α : Type} (a b : α) (tl rest : List α) (n : Nat)
    (hn : (a :: tl).length = n) :
    (tl ++ b :: rest).drop ((tl ++ b :: rest).length - n) =
      (a :: tl ++ b :: rest).drop ((a :: tl ++ b :: rest).length - n) := by
  have h1 : (a :: tl ++ b :: rest).length - n = ((tl ++ b :: rest).length - n) + 1 := by
    simp only [List.length_cons, List.length_append, List.cons_append] at hn ⊢
    omega
  rw [h1]
  rfl

/-- Adding valid messages whose IDs are pairwise distinct and not yet tracked
keeps the last `n` of everything that was tracked or added. -/
theorem Inv.addAll_fifo (hI : Inv h t) {n : Nat} (hn : 1 ≤ n) (hmax : t.maxLength = (n : Int))
    (hb : t.Messages.length ≤ n) (ps : List Nat) (hvalid : ∀ p ∈ ps, (h p).ID ≠ "")
    (hdist : ((t.Messages ++ ps).map (fun p => (h p).ID)).Nodup) :
    ∃ t1, addAll h t (ps.map some) = some (t1, List.replicate ps.length none) ∧
      t1.Messages = (t.Messages ++ ps).drop ((t.Messages ++ ps).length - n) := by
  induction ps generalizing t with
  | nil =>
    refine ⟨t, rfl, ?_⟩
    have : (t.Messages ++ []).length - n = 0 := by
      simp only [List.append_nil]
      omega
    rw [this]
    simp
  | cons p ps ih =>
    have hidp : (h p).ID ≠ "" := hvalid p (List.mem_cons_self _ _)
    have hd := hdist
    rw [List.map_append, List.nodup_append] at hd
    have hg : t.idToElementMap.get (h p).ID = none := by
      rw [hI.get_none_iff]
      intro q hq heq
      exact hd.2.2 (List.mem_map_of_mem (fun p => (h p).ID) hq)
        (by
          show (h q).ID ∈ _
          rw [heq]
          exact List.mem_map_of_mem (fun p => (h p).ID) (List.mem_cons_self _ _))
    have hpos : (1 : Int) ≤ t.maxLength := by rw [hmax]; exact_mod_cast hn
    obtain ⟨t1, hA, hI1, hmax1, hM⟩ := hI.Add_fresh hpos hidp hg
    have hassoc : t.Messages ++ p :: ps = (t.Messages ++ [p]) ++ ps := by simp
    by_cases hge : t.maxLength ≤ (t.Messages.length : Int)
    · rw [if_pos hge] at hM
      have hlen : t.Messages.length = n := by
        rw [hmax] at hge
        have : n ≤ t.Messages.length := by exact_mod_cast hge
        omega
      cases hMs : t.Messages with
      | nil =>
        rw [hMs] at hlen
        simp only [List.length_nil] at hlen
        omega
      | cons a tl =>
        rw [hMs] at hlen hdist
        rw [hMs, List.tail_cons] at hM
        have hb1 : t1.Messages.length ≤ n := by
          rw [hM]
          simp only [List.length_cons, List.length_append, List.length_nil] at hlen ⊢
          omega
        have hsub : ((t1.Messages ++ ps).map (fun p => (h p).ID)).Nodup := by
          refine hdist.sublist (List.Sublist.map _ ?_)
          rw [hM, List.append_assoc]
          exact List.sublist_cons_self a _
        obtain ⟨t2, hall, hM2⟩ := ih hI1 (hmax1.trans hmax) hb1
          (fun q hq => hvalid q (List.mem_cons_of_mem _ hq)) hsub
        refine ⟨t2, ?_, ?_⟩
        · simpa [List.replicate_succ] using addAll_cons_ok hA hall
        · rw [hM2, hM, List.append_assoc]
          exact drop_tail_append a p tl ps n hlen
    · rw [if_neg hge] at hM
      have hb1 : t1.Messages.length ≤ n := by
        rw [hmax] at hge
        have : ¬ n ≤ t.Messages.length := by exact_mod_cast hge
        rw [hM]
        simp only [List.length_append, List.length_singleton]
        omega
      have hsub : ((t1.Messages ++ ps).map (fun p => (h p).ID)).Nodup := by
        rw [hM, ← hassoc]
        exact hdist
      obtain ⟨t2, hall, hM2⟩ := ih hI1 (hmax1.trans hmax) hb1
        (fun q hq => hvalid q (List.mem_cons_of_mem _ hq)) hsub
      refine ⟨t2, ?_, ?_⟩
      · simpa [List.replicate_succ] using addAll_cons_ok hA hall
      · rw [hM2, hM, ← hassoc]

end Fifo

/-- C1 (FIFO overflow): for a capacity `maxLength ≥ 1` and `maxLength + k` valid
messages with pairwise distinct non-empty IDs, adding them in order to a fresh
tracker makes every `Add` return nil, and `Messages()` is then exactly the last
`maxLength` of them (the list without its first `k`), in their original order. -/
theorem fifo_overflow (h : Heap) (maxLength : Int) (hpos : 1 ≤ maxLength) (k : Nat)
    (ps : List Nat) (hlen : (ps.length : Int) = maxLength + k)
    (hvalid : ∀ p ∈ ps, (h p).ID ≠ "")
    (hdist : (ps.map (fun p => (h p).ID)).Nodup) :
    ∃ t1, addAll h (newTracker maxLength) (ps.map some) =
        some (t1, List.replicate ps.length none) ∧
      t1.Messages = ps.drop k := by
  obtain ⟨n, rfl⟩ := Int.eq_ofNat_of_zero_le (by omega : (0 : Int) ≤ maxLength)
  have hn : 1 ≤ n := by exact_mod_cast hpos
  have hM0 : (newTracker (n : Int)).Messages = [] := rfl
  obtain ⟨t1, hall, hM⟩ := (Inv.init h (n : Int)).addAll_fifo hn rfl
    (by rw [hM0]; exact Nat.zero_le _) ps hvalid (by rw [hM0]; exact hdist)
  refine ⟨t1, hall, ?_⟩
  rw [hM, hM0, List.nil_append]
  have : ps.length - n = k := by
    have : ps.length = n + k := by exact_mod_cast hlen
    omega
  rw [this]

/-- The test "overflow and cleanup": capacity 5 and the messages 0..9 leave 5..9. -/
theorem fifo_overflow_witness :
    ∃ t1, addAll testHeap (newTracker 5) ((List.range 10).map some) =
        some (t1, List.replicate (List.range 10).length none) ∧
      t1.Messages = (List.range 10).drop 5 :=
  fifo_overflow testHeap 5 (by decide) 5 (List.range 10) (by decide) (by decide) (by decide)

/-- C2 (capacity bound): for a capacity `maxLength ≥ 1` and any sequence of `Add`,
`Delete`, `Message` and `Messages` calls with arbitrary arguments on a fresh
tracker, no call panics and after every call (after each initial part
`ops.take j` of the sequence) `Messages()` has at most `maxLength` entries. -/
theorem capacity_bound (h : Heap) (maxLength : Int) (hpos : 1 ≤ maxLength) (ops : List Op)
    (j : Nat) :
    ∃ tj, run h (newTracker maxLength) (ops.take j) = some tj ∧
      (tj.Messages.length : Int) ≤ maxLength :=
  run_newTracker_bounded h hpos (ops.take j)

/-- Capacity 2 and a mixed sequence of calls with nil, empty-ID, duplicate and
unknown arguments. -/
theorem capacity_bound_witness :
    ∃ tj, run peerHeap (newTracker 2)
        ([Op.Add (some 0), Op.Add none, Op.Add (some 1), Op.Add (some 100), Op.Delete "bleh",
          Op.Message "someID1", Op.Messages, Op.Add (some 2), Op.Delete "someID1"].take 8) =
          some tj ∧
      (tj.Messages.length : Int) ≤ 2 :=
  capacity_bound peerHeap 2 (by decide)
    [Op.Add (some 0), Op.Add none, Op.Add (some 1), Op.Add (some 100), Op.Delete "bleh",
      Op.Message "someID1", Op.Messages, Op.Add (some 2), Op.Delete "someID1"] 8

/-- C3 (index/order consistency): in every state reachable from a fresh tracker
of any capacity, so also of a capacity `maxLength ≥ 1`, the keys of `idToElementMap` are exactly the IDs of
the messages held in `linkedList`, every key maps to an element of the list
whose message has that ID, and `Message(id)` returns a nil error exactly when
some entry of `Messages()` has the ID `id`. -/
theorem index_order_consistent (h : Heap) (maxLength : Int) (t : tracker)
    (hR : Reachable h maxLength t) :
    (∀ k, k ∈ GoMap.keys t.idToElementMap ↔ ∃ e ∈ t.linkedList.elems, (h e.Value).ID = k) ∧
    (∀ k e, t.idToElementMap.get k = some e → e ∈ t.linkedList.elems ∧ (h e.Value).ID = k) ∧
    (∀ id, (t.Message id).2 = none ↔ ∃ q ∈ t.Messages, (h q).ID = id) := by
  have hI := hR.inv.1
  refine ⟨?_, ?_, ?_⟩
  · intro k
    rw [GoMap.mem_keys_iff]
    constructor
    · rintro ⟨e, he⟩
      exact ⟨e, (hI.index k e).mp he⟩
    · rintro ⟨e, he⟩
      exact ⟨e, (hI.index k e).mpr he⟩
  · intro k e he
    exact (hI.index k e).mp he
  · intro id
    constructor
    · intro hok
      by_contra hno
      have hall : ∀ q ∈ t.Messages, (h q).ID ≠ id := fun q hq heq => hno ⟨q, hq, heq⟩
      rw [hI.Message_of_not_mem hall] at hok
      cases hok
    · rintro ⟨q, hq, rfl⟩
      rw [hI.Message_of_mem hq]

/-- The full tracker of capacity 2 is reachable and its index matches its list. -/
theorem index_order_consistent_witness :
    (∀ k, k ∈ GoMap.keys fullTracker.idToElementMap ↔
      ∃ e ∈ fullTracker.linkedList.elems, (testHeap e.Value).ID = k) ∧
    (∀ k e, fullTracker.idToElementMap.get k = some e →
      e ∈ fullTracker.linkedList.elems ∧ (testHeap e.Value).ID = k) ∧
    (∀ id, (fullTracker.Message id).2 = none ↔
      ∃ q ∈ fullTracker.Messages, (testHeap q).ID = id) :=
  index_order_consistent testHeap 2 fullTracker
    ⟨[Op.Add (some 0), Op.Add (some 1), Op.Add (some 2)], by decide⟩

/-- C4 (unique ids): in every state reachable from a fresh tracker of any
capacity, so also of a capacity `maxLength ≥ 1`, no two entries of `Messages()` have the same ID. -/
theorem unique_ids (h : Heap) (maxLength : Int) (t : tracker)
    (hR : Reachable h maxLength t) : (t.Messages.map (fun q => (h q).ID)).Nodup :=
  hR.inv.1.ids_nodup

/-- A second message with the ID of a tracked one does not enter the tracker. -/
theorem unique_ids_witness :
    (({ maxLength := 3
        linkedList := { elems := [⟨0, 0⟩, ⟨1, 1⟩], fresh := 2 }
        idToElementMap := [("someID1", ⟨1, 1⟩), ("someID0", ⟨0, 0⟩)] } : tracker).Messages.map
      (fun q => (peerHeap q).ID)).Nodup :=
  unique_ids peerHeap 3 _
    ⟨[Op.Add (some 0), Op.Add (some 1), Op.Add (some 100)], by decide⟩

/-- C5 (Add rejects invalid messages atomically): in every tracker state, and so
in every reachable one, `Add` returns `ErrInvalidMessage` exactly when the
message is nil or its ID is the empty string, and then the tracker is unchanged;
on a fresh tracker `Add(nil)` and `Add` of an empty-ID message fail and leave
`Messages()` empty. -/
theorem add_rejects_invalid (h : Heap) (t : tracker) (m : Option Nat) :
    ((∃ t1, t.Add h m = some (t1, some Error.ErrInvalidMessage)) ↔
      (m = none ∨ ∃ p, m = some p ∧ (h p).ID = "")) ∧
    ((m = none ∨ ∃ p, m = some p ∧ (h p).ID = "") →
      t.Add h m = some (t, some Error.ErrInvalidMessage)) ∧
    (∀ maxLength : Int, (m = none ∨ ∃ p, m = some p ∧ (h p).ID = "") →
      ∃ t1, (newTracker maxLength).Add h m = some (t1, some Error.ErrInvalidMessage) ∧
        t1.Messages = []) := by
  have hinv : ∀ t0 : tracker, (m = none ∨ ∃ p, m = some p ∧ (h p).ID = "") →
      t0.Add h m = some (t0, some Error.ErrInvalidMessage) := by
    rintro t0 (rfl | ⟨p, rfl, hid⟩)
    · rfl
    · exact Add_empty_id t0 hid
  refine ⟨⟨?_, fun hm => ⟨t, hinv t hm⟩⟩, hinv t, fun n hm => ⟨newTracker n, hinv _ hm, rfl⟩⟩
  rintro ⟨t1, hA⟩
  cases m with
  | none => exact Or.inl rfl
  | some p =>
    refine Or.inr ⟨p, rfl, ?_⟩
    by_contra hid
    cases hg : t.idToElementMap.get (h p).ID with
    | some e =>
      rw [Add_tracked hid hg] at hA
      cases hA
    | none =>
      rw [Add_untracked hid hg] at hA
      cases hev : t.evict h with
      | none =>
        rw [hev] at hA
        cases hA
      | some t2 =>
        rw [hev] at hA
        cases hA

/-- On the full tracker of capacity 2, `Add` of a message with an empty ID fails
with `ErrInvalidMessage` and returns the tracker as it was. -/
theorem add_rejects_invalid_witness :
    fullTracker.Add blankHeap (some 0) = some (fullTracker, some Error.ErrInvalidMessage) :=
  (add_rejects_invalid blankHeap fullTracker (some 0)).2.1 (Or.inr ⟨0, rfl, by decide⟩)

/-- C6 (duplicate Add is a first-write-wins no-op): in every reachable state,
full or not, when `Messages()` holds a message `q` with the non-empty ID of `p`,
`Add(p)` returns nil and leaves the tracker as it was, so `Messages()` is the
same sequence, and `Message` of that ID returns the stored `q`, whatever the
`PeerID` and `Data` of `p` are. -/
theorem duplicate_add_noop (h : Heap) (maxLength : Int) (t : tracker)
    (hR : Reachable h maxLength t) (p q : Nat) (hid : (h p).ID ≠ "") (hq : q ∈ t.Messages)
    (hsame : (h q).ID = (h p).ID) :
    ∃ t1, t.Add h (some p) = some (t1, none) ∧ t1 = t ∧ t1.Messages = t.Messages ∧
      t1.Message (h p).ID = (some q, none) := by
  have hI := hR.inv.1
  have hM := hI.Message_of_mem hq
  rw [hsame] at hM
  cases hg : t.idToElementMap.get (h p).ID with
  | none =>
    have := (hI.get_none_iff (h p).ID).mp hg q hq
    exact absurd hsame this
  | some e => exact ⟨t, Add_tracked hid hg, rfl, rfl, hM⟩

/-- Message 3 is tracked; adding the message at address 103, which has the same
ID and another `PeerID`, changes nothing and `Message` still returns message 3. -/
theorem duplicate_add_noop_witness :
    (peerHeap 103).PeerID ≠ (peerHeap 3).PeerID ∧
    ∃ t1, (tracker.mk 5 ⟨[⟨0, 0⟩, ⟨1, 1⟩, ⟨2, 2⟩, ⟨3, 3⟩], 4⟩
          [("someID3", ⟨3, 3⟩), ("someID2", ⟨2, 2⟩), ("someID1", ⟨1, 1⟩),
            ("someID0", ⟨0, 0⟩)]).Add peerHeap (some 103) = some (t1, none) ∧
      t1 = tracker.mk 5 ⟨[⟨0, 0⟩, ⟨1, 1⟩, ⟨2, 2⟩, ⟨3, 3⟩], 4⟩
          [("someID3", ⟨3, 3⟩), ("someID2", ⟨2, 2⟩), ("someID1", ⟨1, 1⟩),
            ("someID0", ⟨0, 0⟩)] ∧
      t1.Messages = [0, 1, 2, 3] ∧
      t1.Message (peerHeap 103).ID = (some 3, none) :=
  ⟨by decide,
    duplicate_add_noop peerHeap 5 _
      ⟨[Op.Add (some 0), Op.Add (some 1), Op.Add (some 2), Op.Add (some 3)], by decide⟩
      103 3 (by decide) (by decide) (by decide)⟩

section DeleteLemmas

variable {h : Heap} {t : tracker}

theorem Inv.filter_id_eq_erase (hI : Inv h t) {q : Nat} (hq : q ∈ t.Messages) :
    t.Messages.filter (fun r => decide ((h r).ID ≠ (h q).ID)) = t.Messages.erase q := by
  have hnd : t.Messages.Nodup := List.Nodup.of_map _ hI.ids_nodup
  rw [hnd.erase_eq_filter]
  apply List.filter_congr
  intro r hr
  by_cases hrq : r = q
  · subst hrq
    simp
  · have hne : (h r).ID ≠ (h q).ID :=
      fun heq => hrq (List.inj_on_of_nodup_map hI.ids_nodup hr hq heq)
    simp [hne, hrq]

end DeleteLemmas

/-- C7 (Add at capacity evicts exactly the oldest entry): in a reachable state of
a tracker of capacity `maxLength ≥ 1` that holds `maxLength` messages, `Add` of a
valid message `p` whose ID is not tracked returns nil; `Messages()` afterwards is
the previous sequence without its first entry and with `p` at the back; the ID of
the evicted first entry is no longer found by `Message`, and every other previous
entry is still found. -/
theorem add_at_capacity_evicts_oldest (h : Heap) (maxLength : Int) (hpos : 1 ≤ maxLength)
    (t : tracker) (hR : Reachable h maxLength t)
    (hfull : (t.Messages.length : Int) = maxLength) (p : Nat) (hid : (h p).ID ≠ "")
    (hnew : ∀ q ∈ t.Messages, (h q).ID ≠ (h p).ID) :
    ∃ t1, t.Add h (some p) = some (t1, none) ∧
      t1.Messages = t.Messages.tail ++ [p] ∧
      (∀ first ∈ t.Messages.head?,
        t1.Message (h first).ID = (none, some Error.ErrMessageNotFound)) ∧
      (∀ q ∈ t.Messages.tail, t1.Message (h q).ID = (some q, none)) := by
  obtain ⟨hI, hmax⟩ := hR.inv
  have hg := (hI.get_none_iff (h p).ID).mpr hnew
  obtain ⟨t1, hA, hI1, -, hM⟩ := hI.Add_fresh (hmax ▸ hpos) hid hg
  rw [if_pos (by rw [hmax, hfull])] at hM
  refine ⟨t1, hA, hM, ?_, ?_⟩
  · intro first hfirst
    apply hI1.Message_of_not_mem
    intro q hq heq
    have hnd := hI.ids_nodup
    cases hMs : t.Messages with
    | nil => simp [hMs] at hfirst
    | cons a tl =>
      rw [hMs] at hfirst hnd hnew
      simp only [List.head?_cons, Option.mem_def, Option.some.injEq] at hfirst
      subst hfirst
      rw [hM, hMs, List.tail_cons, List.mem_append, List.mem_singleton] at hq
      rw [List.map_cons, List.nodup_cons] at hnd
      rcases hq with hq | rfl
      · exact hnd.1 (heq ▸ List.mem_map_of_mem (fun q => (h q).ID) hq)
      · exact hnew a (List.mem_cons_self _ _) heq.symm
  · intro q hq
    apply hI1.Message_of_mem
    rw [hM]
    exact List.mem_append_left _ hq

/-- The full tracker of capacity 2 holds messages 1 and 2; adding message 3
evicts message 1. -/
theorem add_at_capacity_evicts_oldest_witness :
    ∃ t1, fullTracker.Add testHeap (some 3) = some (t1, none) ∧
      t1.Messages = fullTracker.Messages.tail ++ [3] ∧
      (∀ first ∈ fullTracker.Messages.head?,
        t1.Message (testHeap first).ID = (none, some Error.ErrMessageNotFound)) ∧
      (∀ q ∈ fullTracker.Messages.tail, t1.Message (testHeap q).ID = (some q, none)) :=
  add_at_capacity_evicts_oldest testHeap 2 (by decide) fullTracker
    ⟨[Op.Add (some 0), Op.Add (some 1), Op.Add (some 2)], by decide⟩ (by decide) 3
    (by decide) (by decide)

/-- C8 (Add below capacity appends without evicting): in a reachable state with
fewer than `maxLength` messages, `Add` of a valid message `p` whose ID is not
tracked returns nil, `Messages()` afterwards is the previous sequence followed
by `p`, and every previously tracked message is still found by `Message`. -/
theorem add_below_capacity_appends (h : Heap) (maxLength : Int) (t : tracker)
    (hR : Reachable h maxLength t) (hroom : (t.Messages.length : Int) < maxLength)
    (p : Nat) (hid : (h p).ID ≠ "") (hnew : ∀ q ∈ t.Messages, (h q).ID ≠ (h p).ID) :
    ∃ t1, t.Add h (some p) = some (t1, none) ∧
      t1.Messages = t.Messages ++ [p] ∧
      (∀ q ∈ t.Messages, t1.Message (h q).ID = (some q, none)) := by
  obtain ⟨hI, hmax⟩ := hR.inv
  have hg := (hI.get_none_iff (h p).ID).mpr hnew
  have hpos : 1 ≤ t.maxLength := by
    rw [hmax]
    omega
  obtain ⟨t1, hA, hI1, -, hM⟩ := hI.Add_fresh hpos hid hg
  rw [if_neg (by rw [hmax]; omega)] at hM
  refine ⟨t1, hA, hM, ?_⟩
  intro q hq
  apply hI1.Message_of_mem
  rw [hM]
  exact List.mem_append_left _ hq

/-- The tracker of capacity 3 holding messages 0 and 1 takes message 2 at the back. -/
theorem add_below_capacity_appends_witness :
    ∃ t1, roomyTracker.Add testHeap (some 2) = some (t1, none) ∧
      t1.Messages = roomyTracker.Messages ++ [2] ∧
      (∀ q ∈ roomyTracker.Messages, t1.Message (testHeap q).ID = (some q, none)) :=
  add_below_capacity_appends testHeap 3 roomyTracker
    ⟨[Op.Add (some 0), Op.Add (some 1)], by decide⟩ (by decide) 2 (by decide) (by decide)

/-- C9 (Delete fails atomically on an unknown id): in every reachable state,
`Delete(id)` returns `ErrMessageNotFound` exactly when no entry of `Messages()`
has the ID `id`, and then the tracker is unchanged; on a fresh tracker `Delete`
fails with `ErrMessageNotFound`. -/
theorem delete_unknown_fails (h : Heap) (maxLength : Int) (t : tracker)
    (hR : Reachable h maxLength t) (id : String) :
    ((t.Delete id).2 = some Error.ErrMessageNotFound ↔ ∀ q ∈ t.Messages, (h q).ID ≠ id) ∧
    ((∀ q ∈ t.Messages, (h q).ID ≠ id) →
      t.Delete id = (t, some Error.ErrMessageNotFound)) ∧
    (newTracker maxLength).Delete id =
      (newTracker maxLength, some Error.ErrMessageNotFound) := by
  have hI := hR.inv.1
  refine ⟨⟨?_, ?_⟩, ?_, rfl⟩
  · intro herr
    rw [← hI.get_none_iff]
    cases hg : t.idToElementMap.get id with
    | none => rfl
    | some e =>
      rw [hI.Delete_found hg] at herr
      cases herr
  · intro hall
    rw [Delete_missing ((hI.get_none_iff id).mpr hall)]
  · intro hall
    exact Delete_missing ((hI.get_none_iff id).mpr hall)

/-- The full tracker of capacity 2 holds messages 1 and 2; `Delete` of the
evicted ID `"someID0"` fails and changes nothing. -/
theorem delete_unknown_fails_witness :
    ((fullTracker.Delete "someID0").2 = some Error.ErrMessageNotFound ↔
      ∀ q ∈ fullTracker.Messages, (testHeap q).ID ≠ "someID0") ∧
    ((∀ q ∈ fullTracker.Messages, (testHeap q).ID ≠ "someID0") →
      fullTracker.Delete "someID0" = (fullTracker, some Error.ErrMessageNotFound)) ∧
    (newTracker 2).Delete "someID0" = (newTracker 2, some Error.ErrMessageNotFound) :=
  delete_unknown_fails testHeap 2 fullTracker
    ⟨[Op.Add (some 0), Op.Add (some 1), Op.Add (some 2)], by decide⟩ "someID0"

/-- C10 (Delete removes exactly one entry and keeps order): in every reachable
state, for a tracked message `q`, `Delete` of its ID returns nil; `Messages()`
afterwards is the previous sequence with `q` removed, which is the previous
sequence without the entries of that ID and is one entry shorter, the others
keeping their relative order; and `Message` of that ID then fails with
`ErrMessageNotFound`. -/
theorem delete_removes_one (h : Heap) (maxLength : Int) (t : tracker)
    (hR : Reachable h maxLength t) (q : Nat) (hq : q ∈ t.Messages) :
    ∃ t1, t.Delete (h q).ID = (t1, none) ∧
      t1.Messages = t.Messages.erase q ∧
      t1.Messages = t.Messages.filter (fun r => decide ((h r).ID ≠ (h q).ID)) ∧
      t1.Messages.length + 1 = t.Messages.length ∧
      t1.Message (h q).ID = (none, some Error.ErrMessageNotFound) := by
  have hI := hR.inv.1
  cases hg : t.idToElementMap.get (h q).ID with
  | none => exact absurd rfl ((hI.get_none_iff (h q).ID).mp hg q hq)
  | some e =>
    have hM : (t.dropId h (h q).ID).Messages = t.Messages.erase q := by
      rw [Messages_dropId, hI.filter_id_eq_erase hq]
    refine ⟨t.dropId h (h q).ID, hI.Delete_found hg, hM, Messages_dropId t h _, ?_, ?_⟩
    · rw [hM, List.length_erase_of_mem hq]
      have : 0 < t.Messages.length := List.length_pos_of_mem hq
      omega
    · apply (hI.of_dropId _).Message_of_not_mem
      intro r hr
      rw [Messages_dropId, List.mem_filter] at hr
      simpa using hr.2

/-- The full tracker of capacity 2 holds messages 1 and 2; deleting the ID of
message 1 leaves message 2. -/
theorem delete_removes_one_witness :
    ∃ t1, fullTracker.Delete (testHeap 1).ID = (t1, none) ∧
      t1.Messages = fullTracker.Messages.erase 1 ∧
      t1.Messages =
        fullTracker.Messages.filter (fun r => decide ((testHeap r).ID ≠ (testHeap 1).ID)) ∧
      t1.Messages.length + 1 = fullTracker.Messages.length ∧
      t1.Message (testHeap 1).ID = (none, some Error.ErrMessageNotFound) :=
  delete_removes_one testHeap 2 fullTracker
    ⟨[Op.Add (some 0), Op.Add (some 1), Op.Add (some 2)], by decide⟩ 1 (by decide)

/-- C11 (Message lookup): in every reachable state, when no entry of
`Messages()` has the ID `id`, `Message(id)` returns nil and
`ErrMessageNotFound`; when an entry `q` has it, `Message(id)` returns `q` with a
nil error and `q` is the only entry with that ID. The call leaves the tracker
as it was. -/
theorem message_lookup (h : Heap) (maxLength : Int) (t : tracker)
    (hR : Reachable h maxLength t) (id : String) :
    ((∀ q ∈ t.Messages, (h q).ID ≠ id) →
      t.Message id = (none, some Error.ErrMessageNotFound)) ∧
    (∀ q ∈ t.Messages, (h q).ID = id →
      t.Message id = (some q, none) ∧ ∀ r ∈ t.Messages, (h r).ID = id → r = q) ∧
    step h t (Op.Message id) = some t := by
  have hI := hR.inv.1
  refine ⟨fun hall => hI.Message_of_not_mem hall, ?_, rfl⟩
  intro q hq heq
  refine ⟨?_, ?_⟩
  · rw [← heq]
    exact hI.Message_of_mem hq
  · intro r hr hreq
    exact List.inj_on_of_nodup_map hI.ids_nodup hr hq (hreq.trans heq.symm)

/-- The full tracker of capacity 2 holds messages 1 and 2: `"someID2"` is found
and is message 2. -/
theorem message_lookup_witness :
    ((∀ q ∈ fullTracker.Messages, (testHeap q).ID ≠ "someID2") →
      fullTracker.Message "someID2" = (none, some Error.ErrMessageNotFound)) ∧
    (∀ q ∈ fullTracker.Messages, (testHeap q).ID = "someID2" →
      fullTracker.Message "someID2" = (some q, none) ∧
        ∀ r ∈ fullTracker.Messages, (testHeap r).ID = "someID2" → r = q) ∧
    step testHeap fullTracker (Op.Message "someID2") = some fullTracker :=
  message_lookup testHeap 2 fullTracker
    ⟨[Op.Add (some 0), Op.Add (some 1), Op.Add (some 2)], by decide⟩ "someID2"

/-- C12 (Add-then-get round trip): in a reachable state of a tracker of capacity
`maxLength ≥ 1`, for a valid message `p`, `Add(p)` returns nil and afterwards
`Message` of the ID of `p` succeeds with a non-nil message `q` that has this ID;
`q` is `p` itself when the ID was not tracked before the `Add`, and it is the
message that was stored under that ID before otherwise. -/
theorem add_then_get (h : Heap) (maxLength : Int) (hpos : 1 ≤ maxLength) (t : tracker)
    (hR : Reachable h maxLength t) (p : Nat) (hid : (h p).ID ≠ "") :
    ∃ t1 q, t.Add h (some p) = some (t1, none) ∧
      t1.Message (h p).ID = (some q, none) ∧ (h q).ID = (h p).ID ∧
      ((∀ r ∈ t.Messages, (h r).ID ≠ (h p).ID) → q = p) ∧
      (∀ r ∈ t.Messages, (h r).ID = (h p).ID →
        q = r ∧ t.Message (h p).ID = (some r, none)) := by
  obtain ⟨hI, hmax⟩ := hR.inv
  cases hg : t.idToElementMap.get (h p).ID with
  | some e =>
    have he := (hI.index _ e).mp hg
    have hmem : e.Value ∈ t.Messages := List.mem_map_of_mem (fun e => e.Value) he.1
    have hM : t.Message (h p).ID = (some e.Value, none) := by
      simp [tracker.Message, hg]
    refine ⟨t, e.Value, Add_tracked hid hg, hM, he.2, ?_, ?_⟩
    · intro hall
      exact absurd he.2 (hall e.Value hmem)
    · intro r hr hreq
      have : e.Value = r :=
        List.inj_on_of_nodup_map hI.ids_nodup hmem hr (he.2.trans hreq.symm)
      rw [← this]
      exact ⟨rfl, hM⟩
  | none =>
    obtain ⟨t1, hA, hI1, -, hM⟩ := hI.Add_fresh (hmax ▸ hpos) hid hg
    have hp : p ∈ t1.Messages := by
      rw [hM]
      exact List.mem_append_right _ (List.mem_singleton_self p)
    refine ⟨t1, p, hA, hI1.Message_of_mem hp, rfl, fun _ => rfl, ?_⟩
    intro r hr hreq
    exact absurd hreq ((hI.get_none_iff _).mp hg r hr)

/-- The full tracker of capacity 2 takes message 3, and `Message("someID3")`
then returns it. -/
theorem add_then_get_witness :
    ∃ t1 q, fullTracker.Add testHeap (some 3) = some (t1, none) ∧
      t1.Message (testHeap 3).ID = (some q, none) ∧ (testHeap q).ID = (testHeap 3).ID ∧
      ((∀ r ∈ fullTracker.Messages, (testHeap r).ID ≠ (testHeap 3).ID) → q = 3) ∧
      (∀ r ∈ fullTracker.Messages, (testHeap r).ID = (testHeap 3).ID →
        q = r ∧ fullTracker.Message (testHeap 3).ID = (some r, none)) :=
  add_then_get testHeap 2 (by decide) fullTracker
    ⟨[Op.Add (some 0), Op.Add (some 1), Op.Add (some 2)], by decide⟩ 3 (by decide)

section OrderLemmas

variable {h : Heap} {t : tracker}

/-- For any capacity: when `Add` of a valid message with an untracked ID returns,
it returns nil and `Messages()` is a final part of the old sequence followed by
the message. -/
theorem Inv.Add_fresh_returns (hI : Inv h t) {p : Nat} (hid : (h p).ID ≠ "")
    (hg : t.idToElementMap.get (h p).ID = none) {t1 : tracker} {err : Option Error}
    (hA : t.Add h (some p) = some (t1, err)) :
    err = none ∧
      (t1.Messages = t.Messages ++ [p] ∨ t1.Messages = t.Messages.tail ++ [p]) := by
  rw [Add_untracked hid hg] at hA
  by_cases hge : t.maxLength ≤ (t.linkedList.Len : Int)
  · cases hcons : t.linkedList.elems with
    | nil =>
      rw [evict_empty h hge hcons] at hA
      cases hA
    | cons first rest =>
      rw [hI.evict_full hge hcons] at hA
      simp only [Option.map_some', Option.some.injEq, Prod.mk.injEq] at hA
      obtain ⟨ht1, herr⟩ := hA
      refine ⟨herr.symm, Or.inr ?_⟩
      rw [← ht1, Messages_push, Messages_tail t hcons]
      simp only [tracker.Messages, hI.dropId_head hcons]
  · rw [evict_below h (not_le.mp hge)] at hA
    simp only [Option.map_some', Option.some.injEq, Prod.mk.injEq] at hA
    obtain ⟨ht1, herr⟩ := hA
    refine ⟨herr.symm, Or.inl ?_⟩
    rw [← ht1, Messages_push]

theorem Inv.not_mem_of_untracked (hI : Inv h t) {p : Nat}
    (hg : t.idToElementMap.get (h p).ID = none) : p ∉ t.Messages :=
  fun hp => (hI.get_none_iff _).mp hg p hp rfl

/-- Deleting, in order, the IDs of the messages at the front of the tracked
sequence removes exactly them, every `Delete` returning nil. -/
theorem Inv.deleteAll_front (hI : Inv h t) (front rest : List Nat)
    (hM : t.Messages = front ++ rest) :
    (deleteAll t (front.map (fun q => (h q).ID))).2 = List.replicate front.length none ∧
      (deleteAll t (front.map (fun q => (h q).ID))).1.Messages = rest := by
  induction front generalizing t with
  | nil =>
    simp only [List.map_nil, deleteAll, List.length_nil, List.replicate_zero, true_and]
    simpa using hM
  | cons q front ih =>
    have hq : q ∈ t.Messages := by
      rw [hM]
      simp
    cases hg : t.idToElementMap.get (h q).ID with
    | none => exact absurd rfl ((hI.get_none_iff _).mp hg q hq)
    | some e =>
      have hD := hI.Delete_found hg
      have hM1 : (t.dropId h (h q).ID).Messages = front ++ rest := by
        rw [Messages_dropId, hI.filter_id_eq_erase hq, hM]
        simp
      obtain ⟨h1, h2⟩ := ih (hI.of_dropId _) hM1
      simp only [List.map_cons, deleteAll, hD, List.length_cons, List.replicate_succ]
      exact ⟨by rw [h1], h2⟩

end OrderLemmas

/-- C13 (insertion order is never disturbed): in every reachable state and for
every single call with any argument, when the call returns, `Messages()`
afterwards is a subsequence `kept` of the previous `Messages()` (the messages
tracked before and after, in their previous relative order), followed, when
`Add` inserted a message that was not tracked, by that message at the back.
With a capacity `maxLength ≥ 1` the call does return. -/
theorem insertion_order_kept (h : Heap) (maxLength : Int) (t : tracker)
    (hR : Reachable h maxLength t) (op : Op) :
    (1 ≤ maxLength → ∃ t1, step h t op = some t1) ∧
    ∀ t1, step h t op = some t1 →
      ∃ kept, kept.Sublist t.Messages ∧
        (t1.Messages = kept ∨
          ∃ p, op = Op.Add (some p) ∧ p ∉ t.Messages ∧ t1.Messages = kept ++ [p]) := by
  obtain ⟨hI, hmax⟩ := hR.inv
  refine ⟨?_, ?_⟩
  · intro hpos
    obtain ⟨t1, hs, -⟩ := hI.step_bounded (hmax ▸ hpos) (hmax ▸ hR.bounded hpos) op
    exact ⟨t1, hs⟩
  · intro t1 hs
    cases op with
    | Add m =>
      cases hA : t.Add h m with
      | none => simp [step, hA] at hs
      | some r =>
        obtain ⟨t2, err⟩ := r
        simp only [step, hA, Option.map_some', Option.some.injEq] at hs
        subst hs
        cases m with
        | none =>
          rw [Add_nil] at hA
          cases hA
          exact ⟨t.Messages, List.Sublist.refl _, Or.inl rfl⟩
        | some p =>
          by_cases hid : (h p).ID = ""
          · rw [Add_empty_id t hid] at hA
            cases hA
            exact ⟨t.Messages, List.Sublist.refl _, Or.inl rfl⟩
          · cases hg : t.idToElementMap.get (h p).ID with
            | some e =>
              rw [Add_tracked hid hg] at hA
              cases hA
              exact ⟨t.Messages, List.Sublist.refl _, Or.inl rfl⟩
            | none =>
              have hp := hI.not_mem_of_untracked hg
              rcases (hI.Add_fresh_returns hid hg hA).2 with hM | hM
              · exact ⟨t.Messages, List.Sublist.refl _, Or.inr ⟨p, rfl, hp, hM⟩⟩
              · exact ⟨t.Messages.tail, List.tail_sublist _, Or.inr ⟨p, rfl, hp, hM⟩⟩
    | Delete id =>
      simp only [step, Option.some.injEq] at hs
      subst hs
      cases hg : t.idToElementMap.get id with
      | none =>
        rw [Delete_missing hg]
        exact ⟨t.Messages, List.Sublist.refl _, Or.inl rfl⟩
      | some e =>
        rw [hI.Delete_found hg]
        exact ⟨(t.dropId h id).Messages, by rw [Messages_dropId]; exact List.filter_sublist _,
          Or.inl rfl⟩
    | Message id =>
      simp only [step, Option.some.injEq] at hs
      subst hs
      exact ⟨t.Messages, List.Sublist.refl _, Or.inl rfl⟩
    | Messages =>
      simp only [step, Option.some.injEq] at hs
      subst hs
      exact ⟨t.Messages, List.Sublist.refl _, Or.inl rfl⟩

/-- On the full tracker of capacity 2, which holds messages 1 and 2, `Add` of
message 3 keeps a subsequence of the old entries and puts 3 at the back. -/
theorem insertion_order_kept_witness :
    ((1 : Int) ≤ 2 → ∃ t1, step testHeap fullTracker (Op.Add (some 3)) = some t1) ∧
    ∀ t1, step testHeap fullTracker (Op.Add (some 3)) = some t1 →
      ∃ kept, kept.Sublist fullTracker.Messages ∧
        (t1.Messages = kept ∨
          ∃ p, Op.Add (some 3) = Op.Add (some p) ∧ p ∉ fullTracker.Messages ∧
            t1.Messages = kept ++ [p]) :=
  insertion_order_kept testHeap 2 fullTracker
    ⟨[Op.Add (some 0), Op.Add (some 1), Op.Add (some 2)], by decide⟩ (Op.Add (some 3))

section AddAllLemmas

variable {h : Heap} {t : tracker}

theorem Inv.of_addAll (hI : Inv h t) {ms : List (Option Nat)} {t1 : tracker}
    {errs : List (Option Error)} (hall : addAll h t ms = some (t1, errs)) :
    Inv h t1 ∧ t1.maxLength = t.maxLength := by
  induction ms generalizing t errs with
  | nil =>
    simp only [addAll, Option.some.injEq, Prod.mk.injEq] at hall
    rw [← hall.1]
    exact ⟨hI, rfl⟩
  | cons m ms ih =>
    cases hA : t.Add h m with
    | none => simp [addAll, hA] at hall
    | some r =>
      obtain ⟨t2, err⟩ := r
      cases hrest : addAll h t2 ms with
      | none => simp [addAll, hA, hrest] at hall
      | some r2 =>
        obtain ⟨t3, errs2⟩ := r2
        simp only [addAll, hA, hrest, Option.some.injEq, Prod.mk.injEq] at hall
        obtain ⟨ht, -⟩ := hall
        subst ht
        have h2 := hI.of_Add hA
        have h3 := ih h2.1 hrest
        exact ⟨h3.1, h3.2.trans h2.2⟩

/-- Adding at most `maxLength` valid messages with pairwise distinct IDs to a
fresh tracker tracks all of them, in the order of the calls. -/
theorem addAll_within_capacity (h : Heap) {maxLength : Int} (hpos : 1 ≤ maxLength)
    (qs : List Nat) (hn : (qs.length : Int) ≤ maxLength) (hvalid : ∀ p ∈ qs, (h p).ID ≠ "")
    (hdist : (qs.map (fun p => (h p).ID)).Nodup) :
    ∃ t1, addAll h (newTracker maxLength) (qs.map some) =
        some (t1, List.replicate qs.length none) ∧
      t1.Messages = qs ∧ Inv h t1 := by
  obtain ⟨n, rfl⟩ := Int.eq_ofNat_of_zero_le (by omega : (0 : Int) ≤ maxLength)
  have hn1 : 1 ≤ n := by exact_mod_cast hpos
  have hM0 : (newTracker (n : Int)).Messages = [] := rfl
  obtain ⟨t1, hall, hM⟩ := (Inv.init h (n : Int)).addAll_fifo hn1 rfl
    (by rw [hM0]; exact Nat.zero_le _) qs hvalid (by rw [hM0]; exact hdist)
  refine ⟨t1, hall, ?_, ((Inv.init h (n : Int)).of_addAll hall).1⟩
  rw [hM, hM0, List.nil_append]
  have : qs.length - n = 0 := by
    have : qs.length ≤ n := by exact_mod_cast hn
    omega
  rw [this, List.drop_zero]

end AddAllLemmas

/-- C14 (deletion ordering): for a capacity `maxLength ≥ 1`, `n ≤ maxLength`
valid messages with pairwise distinct IDs and `j ≤ n`, adding all of them in
order to a fresh tracker and then deleting the IDs of the first `j` in order
makes every `Add` and every `Delete` return nil and leaves `Messages()` equal to
the last `n - j` messages in their original order. -/
theorem deletion_ordering (h : Heap) (maxLength : Int) (hpos : 1 ≤ maxLength)
    (ps : List Nat) (j : Nat) (hn : (ps.length : Int) ≤ maxLength) (hj : j ≤ ps.length)
    (hvalid : ∀ p ∈ ps, (h p).ID ≠ "") (hdist : (ps.map (fun p => (h p).ID)).Nodup) :
    ∃ t1, addAll h (newTracker maxLength) (ps.map some) =
        some (t1, List.replicate ps.length none) ∧
      (deleteAll t1 ((ps.take j).map (fun q => (h q).ID))).2 = List.replicate j none ∧
      (deleteAll t1 ((ps.take j).map (fun q => (h q).ID))).1.Messages = ps.drop j := by
  obtain ⟨t1, hall, hM, hI⟩ := addAll_within_capacity h hpos ps hn hvalid hdist
  have hsplit : t1.Messages = ps.take j ++ ps.drop j := by
    rw [hM, List.take_append_drop]
  obtain ⟨h1, h2⟩ := hI.deleteAll_front (ps.take j) (ps.drop j) hsplit
  refine ⟨t1, hall, ?_, h2⟩
  rw [h1, List.length_take, Nat.min_eq_left hj]

/-- The test "add, get, then all messages, delete some": capacity 5, messages
0..4 added, the IDs of the first 3 deleted, messages 3 and 4 left. -/
theorem deletion_ordering_witness :
    ∃ t1, addAll testHeap (newTracker 5) ((List.range 5).map some) =
        some (t1, List.replicate (List.range 5).length none) ∧
      (deleteAll t1 (((List.range 5).take 3).map (fun q => (testHeap q).ID))).2 =
        List.replicate 3 none ∧
      (deleteAll t1 (((List.range 5).take 3).map (fun q => (testHeap q).ID))).1.Messages =
        (List.range 5).drop 3 :=
  deletion_ordering testHeap 5 (by decide) (List.range 5) 3 (by decide) (by decide)
    (by decide) (by decide)

/-- C15 (no lost updates under any ordering of Adds): for a capacity
`maxLength ≥ 1` and `N ≤ maxLength` valid messages `ps` with pairwise distinct
IDs, in whatever order `qs` the `N` atomic `Add` calls take effect on a fresh
tracker, every `Add` returns nil; after any number `j` of them, `Message` finds
each message whose `Add` has taken effect; and `Messages()` at the end has
exactly `N` entries, which are the messages `ps` in the order `qs` in which
their `Add`s took effect. -/
theorem no_lost_updates (h : Heap) (maxLength : Int) (hpos : 1 ≤ maxLength)
    (ps qs : List Nat) (hn : (ps.length : Int) ≤ maxLength)
    (hvalid : ∀ p ∈ ps, (h p).ID ≠ "") (hdist : (ps.map (fun p => (h p).ID)).Nodup)
    (hperm : qs.Perm ps) :
    (∃ t1, addAll h (newTracker maxLength) (qs.map some) =
        some (t1, List.replicate ps.length none) ∧
      t1.Messages = qs ∧ t1.Messages.length = ps.length ∧ t1.Messages.Perm ps) ∧
    ∀ j, ∃ tj, addAll h (newTracker maxLength) ((qs.take j).map some) =
        some (tj, List.replicate (qs.take j).length none) ∧
      ∀ q ∈ qs.take j, tj.Message (h q).ID = (some q, none) := by
  have hlen : qs.length = ps.length := hperm.length_eq
  have hvalidq : ∀ p ∈ qs, (h p).ID ≠ "" := fun p hp => hvalid p (hperm.subset hp)
  have hdistq : (qs.map (fun p => (h p).ID)).Nodup :=
    ((hperm.map (fun p => (h p).ID)).nodup_iff).mpr hdist
  refine ⟨?_, ?_⟩
  · obtain ⟨t1, hall, hM, -⟩ :=
      addAll_within_capacity h hpos qs (by rw [hlen]; exact hn) hvalidq hdistq
    refine ⟨t1, by rw [← hlen]; exact hall, hM, by rw [hM, hlen], by rw [hM]; exact hperm⟩
  · intro j
    have hsub : (qs.take j).Sublist qs := List.take_sublist j qs
    have hlej : ((qs.take j).length : Int) ≤ maxLength := by
      have : (qs.take j).length ≤ qs.length := hsub.length_le
      have h2 : ((qs.take j).length : Int) ≤ (qs.length : Int) := by exact_mod_cast this
      rw [hlen] at h2
      exact le_trans h2 hn
    obtain ⟨tj, hall, hM, hI⟩ := addAll_within_capacity h hpos (qs.take j) hlej
      (fun p hp => hvalidq p (hsub.subset hp)) (hdistq.sublist (hsub.map _))
    refine ⟨tj, hall, ?_⟩
    intro q hq
    exact hI.Message_of_mem (by rw [hM]; exact hq)

/-- Capacity 4 and the messages 0..3, whose `Add`s take effect in the order
2, 0, 3, 1. -/
theorem no_lost_updates_witness :
    (∃ t1, addAll testHeap (newTracker 4) (([2, 0, 3, 1] : List Nat).map some) =
        some (t1, List.replicate ([0, 1, 2, 3] : List Nat).length none) ∧
      t1.Messages = [2, 0, 3, 1] ∧ t1.Messages.length = ([0, 1, 2, 3] : List Nat).length ∧
      t1.Messages.Perm [0, 1, 2, 3]) ∧
    ∀ j, ∃ tj, addAll testHeap (newTracker 4) ((([2, 0, 3, 1] : List Nat).take j).map some) =
        some (tj, List.replicate (([2, 0, 3, 1] : List Nat).take j).length none) ∧
      ∀ q ∈ ([2, 0, 3, 1] : List Nat).take j, tj.Message (testHeap q).ID = (some q, none) :=
  no_lost_updates testHeap 4 (by decide) [0, 1, 2, 3] [2, 0, 3, 1] (by decide) (by decide)
    (by decide) (by decide)

section PairLemmas

variable {h : Heap} {t : tracker}

/-- Where an entry of `Messages()` after a call comes from: it was tracked before
and the call was not `Delete` of its ID, or the call was `Add` of it. -/
theorem Inv.step_mem (hI : Inv h t) {op : Op} {t1 : tracker} (hs : step h t op = some t1)
    {q : Nat} (hq : q ∈ t1.Messages) :
    (q ∈ t.Messages ∧ op ≠ Op.Delete (h q).ID) ∨ op = Op.Add (some q) := by
  cases op with
  | Add m =>
    cases hA : t.Add h m with
    | none => simp [step, hA] at hs
    | some r =>
      obtain ⟨t2, err⟩ := r
      simp only [step, hA, Option.map_some', Option.some.injEq] at hs
      subst hs
      have hstay : t2 = t → (q ∈ t.Messages ∧ Op.Add m ≠ Op.Delete (h q).ID) ∨
          Op.Add m = Op.Add (some q) := by
        intro ht
        rw [ht] at hq
        exact Or.inl ⟨hq, by simp⟩
      cases m with
      | none =>
        rw [Add_nil] at hA
        cases hA
        exact hstay rfl
      | some p =>
        by_cases hid : (h p).ID = ""
        · rw [Add_empty_id t hid] at hA
          cases hA
          exact hstay rfl
        · cases hg : t.idToElementMap.get (h p).ID with
          | some e =>
            rw [Add_tracked hid hg] at hA
            cases hA
            exact hstay rfl
          | none =>
            rcases (hI.Add_fresh_returns hid hg hA).2 with hM | hM
            · rw [hM, List.mem_append, List.mem_singleton] at hq
              rcases hq with hq | rfl
              · exact Or.inl ⟨hq, by simp⟩
              · exact Or.inr rfl
            · rw [hM, List.mem_append, List.mem_singleton] at hq
              rcases hq with hq | rfl
              · exact Or.inl ⟨List.mem_of_mem_tail hq, by simp⟩
              · exact Or.inr rfl
  | Delete id =>
    simp only [step, Option.some.injEq] at hs
    subst hs
    cases hg : t.idToElementMap.get id with
    | none =>
      rw [Delete_missing hg] at hq
      refine Or.inl ⟨hq, ?_⟩
      intro heq
      simp only [Op.Delete.injEq] at heq
      exact (hI.get_none_iff id).mp hg q hq heq.symm
    | some e =>
      rw [hI.Delete_found hg] at hq
      simp only [Messages_dropId, List.mem_filter, decide_eq_true_eq] at hq
      refine Or.inl ⟨hq.1, ?_⟩
      intro heq
      simp only [Op.Delete.injEq] at heq
      exact hq.2 heq.symm
  | Message id =>
    simp only [step, Option.some.injEq] at hs
    subst hs
    exact Or.inl ⟨hq, by simp⟩
  | Messages =>
    simp only [step, Option.some.injEq] at hs
    subst hs
    exact Or.inl ⟨hq, by simp⟩

/-- A call sequence in which every `Add` is followed later by `Delete` of the
added ID, run on a tracker each of whose entries still has its `Delete` ahead,
ends with nothing tracked. -/
theorem Inv.run_paired_empty (hI : Inv h t) (ops : List Op) {t1 : tracker}
    (hr : run h t ops = some t1)
    (hclosed : ∀ pre p post, ops = pre ++ Op.Add (some p) :: post →
      Op.Delete (h p).ID ∈ post)
    (hpending : ∀ q ∈ t.Messages, Op.Delete (h q).ID ∈ ops) : t1.Messages = [] := by
  induction ops generalizing t with
  | nil =>
    simp only [run, Option.some.injEq] at hr
    subst hr
    apply List.eq_nil_iff_forall_not_mem.mpr
    intro q hq
    exact absurd (hpending q hq) (List.not_mem_nil _)
  | cons op ops ih =>
    cases hs : step h t op with
    | none => simp [run, hs] at hr
    | some t2 =>
      simp only [run, hs, Option.some_bind] at hr
      apply ih (hI.of_step hs).1 hr
      · intro pre p post heq
        exact hclosed (op :: pre) p post (by rw [heq]; rfl)
      · intro q hq
        rcases hI.step_mem hs hq with ⟨hmem, hne⟩ | heq
        · rcases List.mem_cons.mp (hpending q hmem) with hhead | htail
          · exact absurd hhead.symm hne
          · exact htail
        · exact hclosed [] q ops (by rw [heq]; rfl)

end PairLemmas

/-- C16 (Add/Delete pairs leave the tracker empty): for a capacity
`maxLength ≥ 1` and messages `ps`, however many, for every interleaving `ops` of
the calls `Add(p)` and `Delete(p.ID)`, `p` in `ps`, in which the `Delete` of each
message comes after its `Add`, the calls all return and `Messages()` is empty at
the end. The validity of the messages and the distinctness of their IDs are not
needed. -/
theorem add_delete_pairs_empty (h : Heap) (maxLength : Int) (hpos : 1 ≤ maxLength)
    (ps : List Nat) (ops : List Op)
    (hperm : ops.Perm
      (ps.map (fun p => Op.Add (some p)) ++ ps.map (fun p => Op.Delete (h p).ID)))
    (hafter : ∀ p ∈ ps, ∀ pre post, ops = pre ++ Op.Add (some p) :: post →
      Op.Delete (h p).ID ∈ post) :
    ∃ t1, run h (newTracker maxLength) ops = some t1 ∧ t1.Messages = [] := by
  obtain ⟨t1, hr, -⟩ := run_newTracker_bounded h hpos ops
  refine ⟨t1, hr, (Inv.init h maxLength).run_paired_empty ops hr ?_ ?_⟩
  · intro pre p post heq
    have hmem : Op.Add (some p) ∈ ops := by
      rw [heq]
      simp
    have hp : p ∈ ps := by
      have := hperm.subset hmem
      simp only [List.mem_append, List.mem_map, Op.Add.injEq, Option.some.injEq, reduceCtorEq,
        and_false, exists_false, or_false, exists_eq_right] at this
      exact this
    exact hafter p hp pre post heq
  · intro q hq
    simp [newTracker, tracker.Messages, GoList.New] at hq

/-- Capacity 1 and two messages: `Add(0)`, `Add(1)` (which evicts message 0),
`Delete("someID0")` (which fails), `Delete("someID1")`. -/
theorem add_delete_pairs_empty_witness :
    ∃ t1, run testHeap (newTracker 1)
        [Op.Add (some 0), Op.Add (some 1), Op.Delete "someID0", Op.Delete "someID1"] =
          some t1 ∧
      t1.Messages = [] :=
  add_delete_pairs_empty testHeap 1 (by decide) [0, 1]
    [Op.Add (some 0), Op.Add (some 1), Op.Delete "someID0", Op.Delete "someID1"]
    (by decide)
    (by
      intro p hp pre post heq
      rcases pre with _ | ⟨a, _ | ⟨b, _ | ⟨c, _ | ⟨d, pre⟩⟩⟩⟩
      · simp only [List.nil_append, List.cons.injEq, Op.Add.injEq, Option.some.injEq] at heq
        obtain ⟨rfl, rfl⟩ := heq
        decide
      · simp only [List.cons_append, List.nil_append, List.cons.injEq, Op.Add.injEq,
          Option.some.injEq] at heq
        obtain ⟨-, rfl, rfl⟩ := heq
        decide
      · simp at heq
      · simp at heq
      · simp at heq)

section HeapLemmas

variable {h h2 : Heap} {t : tracker}

theorem Inv.consistent (hI : Inv h t) : IndexOrderConsistent h t := by
  refine ⟨?_, ?_, ?_⟩
  · intro k
    rw [GoMap.mem_keys_iff]
    constructor
    · rintro ⟨e, he⟩
      exact ⟨e, (hI.index k e).mp he⟩
    · rintro ⟨e, he⟩
      exact ⟨e, (hI.index k e).mpr he⟩
  · intro k e he
    exact (hI.index k e).mp he
  · intro id
    constructor
    · intro hok
      by_contra hno
      have hall : ∀ q ∈ t.Messages, (h q).ID ≠ id := fun q hq heq => hno ⟨q, hq, heq⟩
      rw [hI.Message_of_not_mem hall] at hok
      cases hok
    · rintro ⟨q, hq, rfl⟩
      rw [hI.Message_of_mem hq]

/-- The tracker reads nothing but the `ID` field of a message: two heaps with the
same IDs give the same `Add`. -/
theorem Add_heap_congr (hid : ∀ q, (h2 q).ID = (h q).ID) (t : tracker) (m : Option Nat) :
    t.Add h2 m = t.Add h m := by
  cases m with
  | none => rfl
  | some p => simp only [tracker.Add, tracker.evict, hid]

theorem step_heap_congr (hid : ∀ q, (h2 q).ID = (h q).ID) (t : tracker) (op : Op) :
    step h2 t op = step h t op := by
  cases op with
  | Add m => simp only [step, Add_heap_congr hid]
  | Delete id => rfl
  | Message id => rfl
  | Messages => rfl

theorem run_heap_congr (hid : ∀ q, (h2 q).ID = (h q).ID) (t : tracker) (ops : List Op) :
    run h2 t ops = run h t ops := by
  induction ops generalizing t with
  | nil => rfl
  | cons op ops ih =>
    simp only [run, step_heap_congr hid]
    cases step h t op with
    | none => rfl
    | some t1 => exact ih t1

end HeapLemmas

/-- C18 (snapshot isolation), refuted as stated: the pointers that `Messages()`
returns are the stored ones. The tracker of capacity 2 that holds message 0 is
reachable; after the caller writes `"changed"` to the `ID` of the returned
message 0 and to nothing else, index/order consistency fails, and after two
further `Add`s, which evict message 0, `Message("someID0")` still returns it,
while without the write it returns `ErrMessageNotFound`. -/
theorem snapshot_isolation_counterexample :
    Reachable testHeap 2 singleTracker ∧
    singleTracker.Messages = [0] ∧
    (∀ q, q ∉ singleTracker.Messages → renamedHeap q = testHeap q) ∧
    ¬ IndexOrderConsistent renamedHeap singleTracker ∧
    (run renamedHeap singleTracker [Op.Add (some 1), Op.Add (some 2)]).map
      (fun t2 => (t2.Messages, t2.Message "someID0")) = some ([1, 2], (some 0, none)) ∧
    (run testHeap singleTracker [Op.Add (some 1), Op.Add (some 2)]).map
      (fun t2 => (t2.Messages, t2.Message "someID0")) =
        some ([1, 2], (none, some Error.ErrMessageNotFound)) := by
  refine ⟨⟨[Op.Add (some 0)], by decide⟩, by decide, ?_, ?_, by decide, by decide⟩
  · intro q hq
    have hq0 : q ≠ 0 := by
      intro h0
      exact hq (by rw [h0]; decide)
    simp [renamedHeap, testHeap, hq0]
  · intro hc
    obtain ⟨q, hq, hq2⟩ := (hc.2.2 "someID0").mp (by decide)
    have hq0 : q = 0 := by
      simpa [singleTracker, tracker.Messages] using hq
    subst hq0
    revert hq2
    decide

/-- C18 (snapshot isolation), as amended: `Messages()` leaves the tracker as it
was and what it returns is a sequence of its own, so replacing or reordering its
entries touches nothing of the tracker. Its entries are the stored pointers: when
the caller writes to returned messages without changing any `ID` (writes to
`PeerID` or `Data`), the tracker state is a reachable state for the heap after
the writes too, index/order consistency holds for it, and every later call
sequence produces the same tracker states, hence the same pointers from
`Messages()` and `Message(id)`, as without the writes. -/
theorem snapshot_shares_pointers (h h2 : Heap) (maxLength : Int) (t : tracker)
    (hR : Reachable h maxLength t) (hfar : ∀ q, q ∉ t.Messages → h2 q = h q)
    (hkeep : ∀ q ∈ t.Messages, (h2 q).ID = (h q).ID) :
    step h t Op.Messages = some t ∧
    Reachable h2 maxLength t ∧
    IndexOrderConsistent h2 t ∧
    (∀ ops, run h2 t ops = run h t ops) ∧
    (∀ ops id, (run h2 t ops).map (fun t1 => (t1.Messages, t1.Message id)) =
      (run h t ops).map (fun t1 => (t1.Messages, t1.Message id))) := by
  have hid : ∀ q, (h2 q).ID = (h q).ID := by
    intro q
    by_cases hq : q ∈ t.Messages
    · exact hkeep q hq
    · rw [hfar q hq]
  have hR2 : Reachable h2 maxLength t := by
    obtain ⟨ops, hr⟩ := hR
    exact ⟨ops, by rw [run_heap_congr hid, hr]⟩
  refine ⟨rfl, hR2, hR2.inv.1.consistent, fun ops => run_heap_congr hid t ops, ?_⟩
  intro ops id
  rw [run_heap_congr hid]

/-- The tracker of capacity 2 holding message 0, whose `PeerID` and `Data` the
caller overwrites. -/
theorem snapshot_shares_pointers_witness :
    step testHeap singleTracker Op.Messages = some singleTracker ∧
    Reachable rewrittenHeap 2 singleTracker ∧
    IndexOrderConsistent rewrittenHeap singleTracker ∧
    (∀ ops, run rewrittenHeap singleTracker ops = run testHeap singleTracker ops) ∧
    (∀ ops id, (run rewrittenHeap singleTracker ops).map
        (fun t1 => (t1.Messages, t1.Message id)) =
      (run testHeap singleTracker ops).map (fun t1 => (t1.Messages, t1.Message id))) :=
  snapshot_shares_pointers testHeap rewrittenHeap 2 singleTracker
    ⟨[Op.Add (some 0)], by decide⟩
    (by
      intro q hq
      have hq0 : q ≠ 0 := by
        intro h0
        exact hq (by rw [h0]; decide)
      simp [rewrittenHeap, testHeap, hq0])
    (by decide)

/-- C19 (capacity 0), the code at the failing input: on `newTracker(0)`, `Add` of
the valid message `generateMessage(0)` does not return nil; it panics, because
`Len() >= maxLength` holds for the empty list, `Front()` is nil and `Remove`
dereferences it. -/
theorem capacity_zero_add_panics :
    (testHeap 0).ID ≠ "" ∧ (newTracker 0).linkedList.Front = none ∧
    (newTracker 0).Add testHeap (some 0) = none := by
  decide

/-- C20 (eviction is safe for positive capacity): in a state reachable from a
fresh tracker of capacity `maxLength ≥ 1` in which the eviction condition
`Len() >= maxLength` holds, the list is not empty: `Front()` is an element of the
list, the ID of its message is a key of `idToElementMap` that maps to this very
element, and the eviction block completes, removing the first entry. That the
element carries a `*Message` holds by the type of `Value`. -/
theorem eviction_safe (h : Heap) (maxLength : Int) (hpos : 1 ≤ maxLength) (t : tracker)
    (hR : Reachable h maxLength t) (hbranch : t.maxLength ≤ (t.linkedList.Len : Int)) :
    ∃ first, t.linkedList.Front = some first ∧ first ∈ t.linkedList.elems ∧
      (h first.Value).ID ∈ GoMap.keys t.idToElementMap ∧
      t.idToElementMap.get (h first.Value).ID = some first ∧
      ∃ t1, t.evict h = some t1 ∧ t1.Messages = t.Messages.tail ∧
        t1.idToElementMap.get (h first.Value).ID = none := by
  obtain ⟨hI, hmax⟩ := hR.inv
  cases hcons : t.linkedList.elems with
  | nil =>
    simp only [GoList.Len, hcons, List.length_nil, hmax] at hbranch
    omega
  | cons first rest =>
    have hmem : first ∈ t.linkedList.elems := by simp [hcons]
    have hget := (hI.index (h first.Value).ID first).mpr ⟨hmem, rfl⟩
    refine ⟨first, by simp [GoList.Front, hcons], by simp, ?_, hget,
      t.dropId h (h first.Value).ID, hI.evict_full hbranch hcons, ?_, ?_⟩
    · rw [GoMap.mem_keys_iff]
      exact ⟨first, hget⟩
    · rw [Messages_tail t hcons]
      simp only [tracker.Messages, hI.dropId_head hcons]
    · exact GoMap.get_delete_self _ _

/-- The full tracker of capacity 2: its front element carries message 1, which is
indexed under `"someID1"`, and the eviction block removes it. -/
theorem eviction_safe_witness :
    ∃ first, fullTracker.linkedList.Front = some first ∧
      first ∈ fullTracker.linkedList.elems ∧
      (testHeap first.Value).ID ∈ GoMap.keys fullTracker.idToElementMap ∧
      fullTracker.idToElementMap.get (testHeap first.Value).ID = some first ∧
      ∃ t1, fullTracker.evict testHeap = some t1 ∧
        t1.Messages = fullTracker.Messages.tail ∧
        t1.idToElementMap.get (testHeap first.Value).ID = none :=
  eviction_safe testHeap 2 (by decide) fullTracker
    ⟨[Op.Add (some 0), Op.Add (some 1), Op.Add (some 2)], by decide⟩ (by decide)

end network
